import Mathlib

/-!
Verification development for an OCR application (Tesseract front end).

The embedding models, from the repository sources:
  * `ocr_engine.py`  – text cleaning (`_clean_text`), confidence aggregation,
    `extract_text` statistics/record construction, `batch_process`,
    the aggregate computations of `_save_batch_report` and
    `get_performance_report`;
  * `image_processor.py` – `remove_noise`, `adjust_brightness_contrast`,
    `resize_image` and the downscale step of `full_preprocessing_pipeline`.

Text is modelled as `List Char`.  Python's `re` character classes are
modelled over ASCII (`\w` as alphanumeric or underscore, `\s` as the six
standard ASCII whitespace characters); the external PIL filter and
enhancement primitives are opaque parameters (structures of functions),
matching the spec's treatment of the image library as a black box.
Python floats that are only compared and averaged are modelled as `ℚ`.
-/

namespace OcrSpec

/-! ## Definitions -/

/-- ASCII model of Python's regex class `\s` (and of `str.strip()`/`str.split()`
whitespace): space, tab, newline, carriage return, vertical tab, form feed. -/
def isSpaceChar (c : Char) : Bool :=
  c = ' ' || c = '\t' || c = '\n' || c = '\r' || c = '\x0b' || c = '\x0c'

/-- ASCII model of Python's regex class `\w`: alphanumeric or underscore. -/
def isWordChar (c : Char) : Bool :=
  c.isAlphanum || c = '_'

/-- The punctuation kept by `_clean_text`'s first substitution:
`.,!?;:-'"()[]` and the two curly braces. -/
def isPunctKept (c : Char) : Bool :=
  c = '.' || c = ',' || c = '!' || c = '?' || c = ';' || c = ':' || c = '-' ||
  c = '\x27' || c = '\x22' || c = '(' || c = ')' || c = '[' || c = ']' ||
  c = '\x7b' || c = '\x7d'

/-- A character surviving `re.sub(r'[^\w\s.,!?;:\-\x27\x22\n()\[\]\x7b\x7d]', '', text)`:
word characters, whitespace (which subsumes the `\n` listed in the class),
and the kept punctuation. -/
def isKeptChar (c : Char) : Bool :=
  isWordChar c || isSpaceChar c || isPunctKept c

/-- Step a of `_clean_text`: drop every character outside the kept class. -/
def stripDisallowed (l : List Char) : List Char :=
  l.filter isKeptChar

/-- Step b of `_clean_text`: `re.sub(r'\s+', ' ', cleaned)`.  Every maximal
run of whitespace characters (newlines included, since `\s` matches them)
becomes a single space. -/
def collapseWs : List Char → List Char
  | [] => []
  | [c] => if isSpaceChar c then [' '] else [c]
  | c :: d :: rest =>
    if isSpaceChar c then
      if isSpaceChar d then collapseWs (d :: rest)
      else ' ' :: collapseWs (d :: rest)
    else c :: collapseWs (d :: rest)

/-- Helper for step c: given the text after a `'\n'`, locate the last `'\n'`
inside the maximal whitespace prefix (the position where the greedy `\s*`
of `re.sub(r'\n\s*\n', '\n\n', ...)` hands over to the final `\n`), and
return the remainder after it.  `none` when the match cannot complete. -/
def wsNlSplit : List Char → Option (List Char)
  | [] => none
  | c :: rest =>
    if isSpaceChar c then
      match wsNlSplit rest with
      | some r => some r
      | none => if c = '\n' then some rest else none
    else none

/-- Step c of `_clean_text`: `re.sub(r'\n\s*\n', '\n\n', cleaned)`.  Scanning
left to right, a `'\n'` followed by a whitespace stretch containing another
`'\n'` is replaced, up to the last such `'\n'`, by exactly two newlines. -/
def collapseBlankLines : List Char → List Char
  | [] => []
  | c :: rest =>
    if c = '\n' then
      match h : wsNlSplit rest with
      | some r => '\n' :: '\n' :: collapseBlankLines r
      | none => '\n' :: collapseBlankLines rest
    else c :: collapseBlankLines rest
termination_by l => l.length
decreasing_by
  · have key : ∀ l r : List Char, wsNlSplit l = some r → r.length < l.length := by
      intro l
      induction l with
      | nil => intro r hr; simp [wsNlSplit] at hr
      | cons a t ih =>
        intro r hr
        simp only [wsNlSplit] at hr
        by_cases hs : isSpaceChar a
        · rw [if_pos hs] at hr
          cases hrec : wsNlSplit t with
          | some r0 =>
            rw [hrec] at hr
            simp at hr
            subst hr
            exact Nat.lt_trans (ih _ hrec) (Nat.lt_succ_self _)
          | none =>
            rw [hrec] at hr
            by_cases hn : a = '\n'
            · rw [if_pos hn] at hr
              simp at hr
              subst hr
              exact Nat.lt_succ_self _
            · rw [if_neg hn] at hr
              simp at hr
        · rw [if_neg hs] at hr
          simp at hr
    exact Nat.lt_trans (key _ _ h) (Nat.lt_succ_self _)
  · exact Nat.lt_succ_self _
  · exact Nat.lt_succ_self _

/-- Python's `cleaned.split('\n')`. -/
def splitLines : List Char → List (List Char)
  | [] => [[]]
  | c :: rest =>
    if c = '\n' then [] :: splitLines rest
    else
      match splitLines rest with
      | [] => [[c]]
      | l :: ls => (c :: l) :: ls

/-- Python's `str.strip()` over the ASCII whitespace model: drop whitespace
from the front, then from the back. -/
def pyStrip (l : List Char) : List Char :=
  ((l.dropWhile isSpaceChar).reverse.dropWhile isSpaceChar).reverse

/-- Step d of `_clean_text`: `'\n'.join([line.strip() for line in cleaned.split('\n')])`. -/
def trimEachLine (l : List Char) : List Char :=
  List.intercalate ['\n'] ((splitLines l).map pyStrip)

/-- `OCREngine._clean_text`: the five substitutions in source order, guarded
by the initial `if not text: return ""`. -/
def cleanText (l : List Char) : List Char :=
  if l = [] then []
  else pyStrip (trimEachLine (collapseBlankLines (collapseWs (stripDisallowed l))))

/-- Two adjacent characters are never both whitespace. -/
def noWsPair (a b : Char) : Prop := ¬(isSpaceChar a = true ∧ isSpaceChar b = true)

/-- The shape `_clean_text` leaves text in: only kept characters, the only
whitespace character is a plain space, no two adjacent whitespace characters,
and neither end is whitespace. -/
def CleanedForm (t : List Char) : Prop :=
  (∀ c ∈ t, isKeptChar c = true) ∧
  (∀ c ∈ t, isSpaceChar c = true → c = ' ') ∧
  List.Chain' noWsPair t ∧
  (∀ c, t.head? = some c → isSpaceChar c = false) ∧
  (∀ c, t.getLast? = some c → isSpaceChar c = false)

/-- The fixed language lookup table `OCREngine.LANGUAGE_MAP`. -/
def LANGUAGE_MAP : List (String × String) :=
  [("indonesian", "ind"), ("english", "eng"), ("french", "fra"),
   ("spanish", "spa"), ("german", "deu"), ("chinese", "chi_sim"),
   ("japanese", "jpn"), ("korean", "kor"), ("arabic", "ara"),
   ("ind+eng", "ind+eng"), ("eng+ind", "eng+ind")]

/-- `self.LANGUAGE_MAP.get(language.lower(), language)`: unknown names pass
through unchanged. -/
def langCode (language : String) : String :=
  match LANGUAGE_MAP.lookup language.toLower with
  | some c => c
  | none => language

/-- `extract_text`'s confidence aggregation
(`confidences = [int(c) for c in data['conf'] if int(c) > 0]` followed by
`sum(confidences) / len(confidences) if confidences else 0`): keep the
`conf` entries strictly greater than zero and average them, `0` when none
remain. -/
def avgConfidence (confs : List Int) : ℚ :=
  let kept := confs.filter (fun c => decide (0 < c))
  if kept = [] then 0
  else ((kept.map (fun c => (c : ℚ))).sum) / (kept.length : ℚ)

/-- Written from the claim's words rather than from the code, for comparison
with `avgConfidence`: the arithmetic mean over exactly the tokens whose
confidence is a valid non-negative score, `0` when no scored token exists. -/
def claimedNonnegMean (confs : List Int) : ℚ :=
  let scored := confs.filter (fun c => decide (0 ≤ c))
  if scored = [] then 0
  else ((scored.map (fun c => (c : ℚ))).sum) / (scored.length : ℚ)

/-- Python's `len(text.split())`: whitespace-delimited split with empty
fields dropped, via an accumulator for the word being read. -/
def wordsAux : List Char → List Char → List (List Char)
  | [], cur => if cur = [] then [] else [cur]
  | c :: rest, cur =>
    if isSpaceChar c then
      (if cur = [] then [] else [cur]) ++ wordsAux rest []
    else wordsAux rest (cur ++ [c])

/-- `len(cleaned_text.split())`. -/
def pyWordCount (l : List Char) : Nat := (wordsAux l []).length

/-- One entry of the engine's result list.  Python builds these as
dictionaries whose keys differ between code paths, so every key that some
path omits is an `Option` (`none` = key absent); the `error` key, when
present, holds either Python `None` or a message. -/
structure OcrResult where
  success : Bool
  text : Option (List Char)
  raw_text : Option (List Char)
  language : Option String
  language_code : Option String
  confidence : Option ℚ
  word_count : Option Nat
  char_count : Option Nat
  error : Option (Option String)
  filename : Option String
deriving Inhabited, DecidableEq

/-- The engine's mutable state: `self.ocr_results` plus
`self.performance_stats`. -/
structure EngineState where
  ocr_results : List OcrResult
  total_images : Nat
  successful : Nat
  failed : Nat
  total_chars : Nat
deriving Inhabited, DecidableEq

/-- The state set up by `OCREngine.__init__`. -/
def engineInit : EngineState := ⟨[], 0, 0, 0, 0⟩

/-- Outcome of the external Tesseract calls inside `extract_text`: either the
raw text together with the `conf` column of `image_to_data`, or the message
of a raised exception. -/
abbrev RecogOutcome := Except String (List Char × List Int)

/-- `OCREngine.extract_text`, with the external recognition call supplied as
an explicit outcome.  Returns the result dictionary and the updated engine
state; both the success and the failure path append their record and bump
the statistics. -/
def extract_text (st : EngineState) (language : String) (recog : RecogOutcome) :
    OcrResult × EngineState :=
  match recog with
  | Except.ok (text, confs) =>
    let cleaned := cleanText text
    let r : OcrResult :=
      { success := true
        text := some cleaned
        raw_text := some text
        language := some language
        language_code := some (langCode language)
        confidence := some (avgConfidence confs)
        word_count := some (pyWordCount cleaned)
        char_count := some cleaned.length
        error := some none
        filename := none }
    (r, { st with
          total_images := st.total_images + 1
          successful := st.successful + 1
          total_chars := st.total_chars + cleaned.length
          ocr_results := st.ocr_results ++ [r] })
  | Except.error e =>
    let r : OcrResult :=
      { success := false
        text := some []
        raw_text := some []
        language := some language
        language_code := none
        confidence := some 0
        word_count := some 0
        char_count := some 0
        error := some (some e)
        filename := none }
    (r, { st with
          total_images := st.total_images + 1
          failed := st.failed + 1
          ocr_results := st.ocr_results ++ [r] })

/-- What happens when the `batch_process` loop body runs on one input.
`loadFail` is an exception raised before `extract_text` is reached
(opening the image); `run` is a completed `extract_text` call (whose own
exceptions never escape it), followed optionally by an exception raised
later in the same `try` block — while saving the per-item artifacts or
printing the preview — which can only fire after `results.append(result)`
has already run. -/
inductive BatchItemRun where
  | loadFail (e : String)
  | run (recog : RecogOutcome) (postErr : Option String)
deriving Inhabited

/-- One item of a batch: the file path and how its loop iteration runs. -/
abbrev BatchInput := String × BatchItemRun

/-- The minimal failure dictionary built by the loop's `except` handler:
only `success`, `filename`, `error` and `text` are present. -/
def batchFailRecord (name e : String) : OcrResult :=
  { success := false
    text := some []
    raw_text := none
    language := none
    language_code := none
    confidence := none
    word_count := none
    char_count := none
    error := some (some e)
    filename := some name }

/-- One iteration of the `batch_process` loop, returning the records it
appends, in order, and the engine state it leaves.  An exception before
`extract_text` appends only the failure record and leaves the engine state
untouched; a completed `extract_text` call appends its record (tagged with
the filename), and an exception raised afterwards — saving artifacts or
printing — appends the failure record as well, after it, while the
engine-state updates of `extract_text` remain. -/
def batchStep (language : String) (st : EngineState) (inp : BatchInput) :
    List OcrResult × EngineState :=
  match inp.2 with
  | BatchItemRun.loadFail e => ([batchFailRecord inp.1 e], st)
  | BatchItemRun.run recog postErr =>
    let res := extract_text st language recog
    let r := { res.1 with filename := some inp.1 }
    match postErr with
    | none => ([r], res.2)
    | some e => ([r, batchFailRecord inp.1 e], res.2)

/-- `OCREngine.batch_process`: the items strictly in order, each item
contributing the records its loop iteration appends; a per-item exception
is caught by the loop's handler and processing continues with the next
item. -/
def batch_process (st : EngineState) (language : String) :
    List BatchInput → List OcrResult × EngineState
  | [] => ([], st)
  | inp :: rest =>
    let step := batchStep language st inp
    let tail := batch_process step.2 language rest
    (step.1 ++ tail.1, tail.2)

/-- Whether an item's loop iteration raises after its result record was
already appended (artifact-save or preview failure). -/
def hasPostError (inp : BatchInput) : Bool :=
  match inp.2 with
  | BatchItemRun.run _ (some _) => true
  | _ => false

/-- The summary numbers of `_save_batch_report`: computed only when the
successful sublist is nonempty (`if successful:`), as the mean confidence
over successes and the total character count. -/
def batchAggregates (results : List OcrResult) : Option (ℚ × Nat) :=
  let successfulR := results.filter (fun r => r.success)
  if successfulR = [] then none
  else some
    (((successfulR.map (fun r => r.confidence.getD 0)).sum) / (successfulR.length : ℚ),
     (successfulR.map (fun r => r.char_count.getD 0)).sum)

/-- The numeric block of `get_performance_report`: the success rate is
computed only under the `successful > 0` guard, and the mean confidence
over stored successful results only when that list is nonempty. -/
def perfStats (st : EngineState) : Option (ℚ × Option ℚ) :=
  if 0 < st.successful then
    let confs :=
      (st.ocr_results.filter (fun r => r.success)).map (fun r => r.confidence.getD 0)
    some ((st.successful : ℚ) / (st.total_images : ℚ) * 100,
      if confs = [] then none else some (confs.sum / (confs.length : ℚ)))
  else none

/-- The engine state after a sequence of `extract_text` calls on one fresh
engine instance. -/
def runCalls (calls : List (String × RecogOutcome)) : EngineState :=
  calls.foldl (fun st c => (extract_text st c.1 c.2).2) engineInit

/-- The bookkeeping relation between `performance_stats` and
`ocr_results`. -/
def StatsInv (st : EngineState) : Prop :=
  st.total_images = st.successful + st.failed ∧
  st.total_images = st.ocr_results.length

/-- External PIL filter primitives used by `remove_noise`, supplied as
opaque functions over an arbitrary image type, matching the spec's
treatment of the image library as a black box. -/
structure NoiseFilters (Img : Type) where
  median : Img → Nat → Img
  gaussian : Img → Nat → Img
  minFilter : Img → Nat → Img
  maxFilter : Img → Nat → Img

/-- `ImageProcessor.remove_noise`: dispatch on the method name, logging each
applied filter; any other method name returns the image as-is. -/
def remove_noise {Img : Type} (F : NoiseFilters Img) (log : List String)
    (image : Img) (method : String) (size : Nat) : Img × List String :=
  if method = "median" then
    (F.median image size, log ++ ["Applied median filter (size=" ++ toString size ++ ")"])
  else if method = "gaussian" then
    (F.gaussian image (size / 2),
     log ++ ["Applied gaussian blur (radius=" ++ toString (size / 2) ++ ")"])
  else if method = "min" then
    (F.minFilter image size, log ++ ["Applied min filter (size=" ++ toString size ++ ")"])
  else if method = "max" then
    (F.maxFilter image size, log ++ ["Applied max filter (size=" ++ toString size ++ ")"])
  else (image, log)

/-- External PIL enhancement primitives used by
`adjust_brightness_contrast`. -/
structure Enhancers (Img : Type) where
  brightness : Img → ℚ → Img
  contrast : Img → ℚ → Img

/-- `ImageProcessor.adjust_brightness_contrast`: each factor applied and
logged only when it differs from `1.0`, brightness first. -/
def adjust_brightness_contrast {Img : Type} (E : Enhancers Img) (log : List String)
    (image : Img) (brightness contrast : ℚ) : Img × List String :=
  let step1 :=
    if brightness ≠ 1 then
      (E.brightness image brightness,
       log ++ ["Adjusted brightness: " ++ toString brightness])
    else (image, log)
  if contrast ≠ 1 then
    (E.contrast step1.1 contrast,
     step1.2 ++ ["Adjusted contrast: " ++ toString contrast])
  else step1

/-- The `max_size` branch of `ImageProcessor.resize_image` on the image's
size: scale both coordinates by `min(max_w/w, max_h/h)` when that ratio is
below one, flooring each coordinate as Python's `int()` does on the
nonnegative values involved; otherwise keep the size. -/
def resizeMax (w h : Nat) (maxSize : Option (Nat × Nat)) : Nat × Nat :=
  match maxSize with
  | some (mw, mh) =>
    let ratio : ℚ := min ((mw : ℚ) / (w : ℚ)) ((mh : ℚ) / (h : ℚ))
    if ratio < 1 then
      ((⌊(w : ℚ) * ratio⌋).toNat, (⌊(h : ℚ) * ratio⌋).toNat)
    else (w, h)
  | none => (w, h)

/-- `ImageProcessor.resize_image` on the image's size: the `scale_factor`
branch first (guarded by truthiness, positivity and `!= 1.0`), then the
`max_size` branch. -/
def resize_image (w h : Nat) (scale : Option ℚ) (maxSize : Option (Nat × Nat)) :
    Nat × Nat :=
  match scale with
  | some s =>
    if s ≠ 0 ∧ 0 < s ∧ s ≠ 1 then
      ((⌊(w : ℚ) * s⌋).toNat, (⌊(h : ℚ) * s⌋).toNat)
    else resizeMax w h maxSize
  | none => resizeMax w h maxSize

/-- Step 3 of `full_preprocessing_pipeline`: call
`resize_image(gray, max_size=(1500, 1500))` only when the longer side
exceeds `2000`. -/
def pipelineResize (w h : Nat) : Nat × Nat :=
  if 2000 < max w h then resize_image w h none (some (1500, 1500)) else (w, h)

/-! ## Helper lemmas: structure of collapsed whitespace -/

theorem collapseWs_cons_nonspace {d : Char} (hd : isSpaceChar d = false) (t : List Char) :
    collapseWs (d :: t) = d :: collapseWs t := by
  cases t with
  | nil => simp [collapseWs, hd]
  | cons e t' => simp [collapseWs, hd]

theorem collapseWs_mem :
    ∀ (l : List Char) (c : Char), c ∈ collapseWs l →
      c = ' ' ∨ (c ∈ l ∧ isSpaceChar c = false) := by
  intro l
  induction l with
  | nil => intro c hc; simp [collapseWs] at hc
  | cons a rest ih =>
    intro c hc
    cases rest with
    | nil =>
      by_cases hs : isSpaceChar a
      · simp [collapseWs, hs] at hc
        exact Or.inl hc
      · simp [collapseWs, hs] at hc
        refine Or.inr ⟨by simp [hc], ?_⟩
        rw [hc]
        simpa using hs
    | cons d rest' =>
      by_cases hs : isSpaceChar a
      · by_cases hd : isSpaceChar d
        · simp only [collapseWs, hs, hd, if_pos] at hc
          rcases ih c hc with h | ⟨hmem, hns⟩
          · exact Or.inl h
          · exact Or.inr ⟨List.mem_cons_of_mem _ hmem, hns⟩
        · simp only [collapseWs, hs, hd, if_pos, if_neg, Bool.false_eq_true,
            not_false_iff, List.mem_cons] at hc
          rcases hc with h | h
          · exact Or.inl h
          · rcases ih c h with h' | ⟨hmem, hns⟩
            · exact Or.inl h'
            · exact Or.inr ⟨List.mem_cons_of_mem _ hmem, hns⟩
      · simp only [collapseWs, hs, Bool.false_eq_true, if_neg, not_false_iff,
          List.mem_cons] at hc
        rcases hc with h | h
        · subst h
          exact Or.inr ⟨List.mem_cons_self _ _, by simpa using hs⟩
        · rcases ih c h with h' | ⟨hmem, hns⟩
          · exact Or.inl h'
          · exact Or.inr ⟨List.mem_cons_of_mem _ hmem, hns⟩

theorem collapseWs_chain :
    ∀ l : List Char, List.Chain' noWsPair (collapseWs l) := by
  intro l
  induction l with
  | nil => simp [collapseWs]
  | cons a rest ih =>
    cases rest with
    | nil =>
      by_cases hs : isSpaceChar a <;> simp [collapseWs, hs]
    | cons d rest' =>
      by_cases hs : isSpaceChar a
      · by_cases hd : isSpaceChar d
        · simpa only [collapseWs, hs, hd, if_pos] using ih
        · have hd' : isSpaceChar d = false := by simpa using hd
          simp only [collapseWs, hs, hd, if_pos, if_neg, Bool.false_eq_true, not_false_iff]
          rw [collapseWs_cons_nonspace hd'] at ih ⊢
          exact List.chain'_cons.mpr ⟨fun h => by rw [hd'] at h; exact absurd h.2 (by simp), ih⟩
      · have hs' : isSpaceChar a = false := by simpa using hs
        simp only [collapseWs, hs, Bool.false_eq_true, if_neg, not_false_iff]
        refine List.chain'_cons'.mpr ⟨fun y _ => ?_, ih⟩
        intro hpair
        rw [hs'] at hpair
        exact absurd hpair.1 (by simp)

theorem collapseWs_fixed :
    ∀ l : List Char, (∀ c ∈ l, isSpaceChar c = true → c = ' ') →
      List.Chain' noWsPair l → collapseWs l = l := by
  intro l
  induction l with
  | nil => intro _ _; rfl
  | cons a rest ih =>
    intro hplain hchain
    cases rest with
    | nil =>
      by_cases hs : isSpaceChar a
      · have : a = ' ' := hplain a (List.mem_cons_self _ _) hs
        simp [collapseWs, hs, this]
      · simp [collapseWs, hs]
    | cons d rest' =>
      have htail : ∀ c ∈ d :: rest', isSpaceChar c = true → c = ' ' :=
        fun c hc => hplain c (List.mem_cons_of_mem _ hc)
      have hchain' : List.Chain' noWsPair (d :: rest') := (List.chain'_cons.mp hchain).2
      by_cases hs : isSpaceChar a
      · have ha : a = ' ' := hplain a (List.mem_cons_self _ _) hs
        have hd : isSpaceChar d = false := by
          rcases Bool.eq_false_or_eq_true (isSpaceChar d) with h | h
          · exact absurd ⟨hs, h⟩ (List.chain'_cons.mp hchain).1
          · exact h
        simp only [collapseWs, hs, hd, if_pos, if_neg, Bool.false_eq_true, not_false_iff]
        rw [ih htail hchain', ha]
      · simp only [collapseWs, hs, Bool.false_eq_true, if_neg, not_false_iff]
        rw [ih htail hchain']

theorem collapseWs_no_nl (l : List Char) : '\n' ∉ collapseWs l := by
  intro h
  rcases collapseWs_mem l _ h with h1 | ⟨_, h2⟩
  · exact absurd h1 (by decide)
  · exact absurd h2 (by decide)

/-! ## Helper lemmas: the newline-dependent steps are inert on newline-free text -/

theorem collapseBlankLines_no_nl :
    ∀ l : List Char, '\n' ∉ l → collapseBlankLines l = l := by
  intro l
  induction l with
  | nil => intro _; simp [collapseBlankLines]
  | cons c rest ih =>
    intro h
    have hc : ¬(c = '\n') := fun he => h (he ▸ List.mem_cons_self _ _)
    have hrest : '\n' ∉ rest := fun hm => h (List.mem_cons_of_mem _ hm)
    simp only [collapseBlankLines, hc, if_neg, not_false_iff]
    rw [ih hrest]

theorem splitLines_no_nl :
    ∀ l : List Char, '\n' ∉ l → splitLines l = [l] := by
  intro l
  induction l with
  | nil => intro _; rfl
  | cons c rest ih =>
    intro h
    have hc : ¬(c = '\n') := fun he => h (he ▸ List.mem_cons_self _ _)
    have hrest : '\n' ∉ rest := fun hm => h (List.mem_cons_of_mem _ hm)
    simp only [splitLines, hc, if_neg, not_false_iff]
    rw [ih hrest]

theorem trimEachLine_no_nl {l : List Char} (h : '\n' ∉ l) :
    trimEachLine l = pyStrip l := by
  unfold trimEachLine
  rw [splitLines_no_nl l h]
  simp [List.intercalate]

/-! ## Helper lemmas: stripping -/

theorem dropWhile_head_not {p : Char → Bool} :
    ∀ {l : List Char} {c : Char} {t : List Char}, l.dropWhile p = c :: t → p c = false := by
  intro l
  induction l with
  | nil => intro c t h; simp [List.dropWhile] at h
  | cons a l' ih =>
    intro c t h
    rw [List.dropWhile_cons] at h
    by_cases hp : p a
    · rw [if_pos hp] at h
      exact ih h
    · rw [if_neg hp] at h
      cases h
      simpa using hp

theorem dropWhile_eq_self {p : Char → Bool} {l : List Char}
    (h : ∀ c, l.head? = some c → p c = false) : l.dropWhile p = l := by
  cases l with
  | nil => rfl
  | cons a t =>
    rw [List.dropWhile_cons, h a rfl]
    simp

theorem mem_of_mem_dropWhile {p : Char → Bool} {l : List Char} {c : Char}
    (h : c ∈ l.dropWhile p) : c ∈ l := by
  rw [← List.takeWhile_append_dropWhile p l]
  exact List.mem_append.mpr (Or.inr h)

theorem chain'_dropWhile {R : Char → Char → Prop} {p : Char → Bool} {l : List Char}
    (h : List.Chain' R l) : List.Chain' R (l.dropWhile p) := by
  rw [← List.takeWhile_append_dropWhile p l] at h
  exact h.right_of_append

theorem getLast?_dropWhile {p : Char → Bool} {l : List Char}
    (h : l.dropWhile p ≠ []) : (l.dropWhile p).getLast? = l.getLast? := by
  conv_rhs => rw [← List.takeWhile_append_dropWhile p l]
  rw [List.getLast?_append_of_ne_nil _ h]

theorem pyStrip_mem {l : List Char} {c : Char} (h : c ∈ pyStrip l) : c ∈ l := by
  unfold pyStrip at h
  rw [List.mem_reverse] at h
  have h1 := mem_of_mem_dropWhile h
  rw [List.mem_reverse] at h1
  exact mem_of_mem_dropWhile h1

theorem pyStrip_chain' {l : List Char} (h : List.Chain' noWsPair l) :
    List.Chain' noWsPair (pyStrip l) := by
  have hsymm : ∀ a b : Char, noWsPair a b → noWsPair b a :=
    fun a b hab hc => hab ⟨hc.2, hc.1⟩
  have hflip : ∀ x : List Char, List.Chain' noWsPair x → List.Chain' (flip noWsPair) x :=
    fun x hx => List.Chain'.imp (fun a b hab => hsymm a b hab) hx
  unfold pyStrip
  exact List.chain'_reverse.mpr (hflip _ (chain'_dropWhile
    (List.chain'_reverse.mpr (hflip _ (chain'_dropWhile h)))))

theorem pyStrip_head? {l : List Char} {c : Char} (h : (pyStrip l).head? = some c) :
    isSpaceChar c = false := by
  unfold pyStrip at h
  rw [List.head?_reverse] at h
  have hne : (l.dropWhile isSpaceChar).reverse.dropWhile isSpaceChar ≠ [] := by
    intro h0
    rw [h0] at h
    simp at h
  rw [getLast?_dropWhile hne, List.getLast?_reverse] at h
  cases e : l.dropWhile isSpaceChar with
  | nil => rw [e] at h; simp at h
  | cons a t =>
    rw [e] at h
    simp only [List.head?_cons, Option.some.injEq] at h
    subst h
    exact dropWhile_head_not e

theorem pyStrip_getLast? {l : List Char} {c : Char} (h : (pyStrip l).getLast? = some c) :
    isSpaceChar c = false := by
  unfold pyStrip at h
  rw [List.getLast?_reverse] at h
  cases e : (l.dropWhile isSpaceChar).reverse.dropWhile isSpaceChar with
  | nil => rw [e] at h; simp at h
  | cons a t =>
    rw [e] at h
    simp only [List.head?_cons, Option.some.injEq] at h
    subst h
    exact dropWhile_head_not e

theorem pyStrip_fixed {l : List Char}
    (h1 : ∀ c, l.head? = some c → isSpaceChar c = false)
    (h2 : ∀ c, l.getLast? = some c → isSpaceChar c = false) :
    pyStrip l = l := by
  unfold pyStrip
  rw [dropWhile_eq_self h1]
  rw [dropWhile_eq_self (fun c hc => h2 c (by rw [← List.head?_reverse]; exact hc))]
  exact List.reverse_reverse l

/-! ## Helper lemmas: the normal form of cleaned text -/

theorem cleanedForm_no_nl {t : List Char} (h : CleanedForm t) : '\n' ∉ t := by
  intro hm
  have := h.2.1 '\n' hm (by decide)
  exact absurd this (by decide)

theorem cleanText_fixed {t : List Char} (h : CleanedForm t) : cleanText t = t := by
  by_cases ht : t = []
  · rw [ht]; simp [cleanText]
  · unfold cleanText
    rw [if_neg ht]
    have hnl : '\n' ∉ t := cleanedForm_no_nl h
    rw [show stripDisallowed t = t from List.filter_eq_self.mpr h.1]
    rw [collapseWs_fixed t h.2.1 h.2.2.1]
    rw [collapseBlankLines_no_nl t hnl]
    rw [trimEachLine_no_nl hnl]
    rw [pyStrip_fixed h.2.2.2.1 h.2.2.2.2]
    exact pyStrip_fixed h.2.2.2.1 h.2.2.2.2

theorem cleanText_cleanedForm (l : List Char) : CleanedForm (cleanText l) := by
  by_cases hl : l = []
  · rw [hl]
    rw [show cleanText [] = [] from by simp [cleanText]]
    refine ⟨?_, ?_, ?_, ?_, ?_⟩ <;> simp
  · have hrw : cleanText l =
        pyStrip (pyStrip (collapseWs (stripDisallowed l))) := by
      unfold cleanText
      rw [if_neg hl]
      rw [collapseBlankLines_no_nl _ (collapseWs_no_nl _)]
      rw [trimEachLine_no_nl (collapseWs_no_nl _)]
    rw [hrw]
    set u := collapseWs (stripDisallowed l) with hu
    refine ⟨?_, ?_, ?_, ?_, ?_⟩
    · intro c hc
      have hcu : c ∈ u := pyStrip_mem (pyStrip_mem hc)
      rcases collapseWs_mem _ c hcu with h | ⟨hmem, _⟩
      · rw [h]; decide
      · exact List.of_mem_filter hmem
    · intro c hc hs
      have hcu : c ∈ u := pyStrip_mem (pyStrip_mem hc)
      rcases collapseWs_mem _ c hcu with h | ⟨_, hns⟩
      · exact h
      · rw [hs] at hns; exact absurd hns (by simp)
    · exact pyStrip_chain' (pyStrip_chain' (collapseWs_chain _))
    · intro c hc
      exact pyStrip_head? hc
    · intro c hc
      exact pyStrip_getLast? hc

/-! ## Claims -/

/-- C1 (counterexample to the claim as stated): on the token confidences
`[0, 100]` the code's reported confidence is `100`, not the arithmetic mean
`50` over the tokens with a valid non-negative score: the zero-scored token
is excluded by the `int(c) > 0` filter. -/
theorem avgConfidence_zero_token_excluded :
    avgConfidence [0, 100] ≠ claimedNonnegMean [0, 100] := by
  have h1 : avgConfidence [0, 100] = 100 := by norm_num [avgConfidence]
  have h2 : claimedNonnegMean [0, 100] = 50 := by
    rw [claimedNonnegMean]
    norm_num
    simp
  rw [h1, h2]
  norm_num

/-- C1 (amended): the reported confidence is the arithmetic mean of the
confidences of exactly those tokens whose confidence is strictly positive —
zero-scored tokens are excluded together with the unscored (`-1`) ones, from
numerator and denominator alike — and it is `0`, with no division, when no
strictly positive token exists. -/
theorem avgConfidence_pos_mean (confs : List Int) :
    (confs.filter (fun c => decide (0 < c)) = [] → avgConfidence confs = 0) ∧
    (confs.filter (fun c => decide (0 < c)) ≠ [] →
      0 < (confs.filter (fun c => decide (0 < c))).length ∧
      avgConfidence confs * ((confs.filter (fun c => decide (0 < c))).length : ℚ) =
        ((confs.filter (fun c => decide (0 < c))).map (fun c => (c : ℚ))).sum) := by
  constructor
  · intro h
    simp [avgConfidence, h]
  · intro h
    refine ⟨List.length_pos.mpr h, ?_⟩
    simp only [avgConfidence, if_neg h]
    rw [div_mul_cancel₀]
    exact Nat.cast_ne_zero.mpr (List.length_pos.mpr h).ne'

/-- C1 witness: the amended statement applied at `[0, -1]` (no strictly
positive token, confidence `0`) and at `[-1, 50, 100]` (mean `75`, stated
multiplicatively). -/
theorem avgConfidence_pos_mean_witness :
    avgConfidence [0, -1] = 0 ∧
    avgConfidence [-1, 50, 100] *
        ((([-1, 50, 100] : List Int).filter (fun c => decide (0 < c))).length : ℚ) =
      ((([-1, 50, 100] : List Int).filter (fun c => decide (0 < c))).map
        (fun c => (c : ℚ))).sum :=
  ⟨(avgConfidence_pos_mean [0, -1]).1 (by decide),
   ((avgConfidence_pos_mean [-1, 50, 100]).2 (by decide)).2⟩

/-- C2 (the code evaluated at the failing input): `_clean_text` turns
`"ab\ncd"` into `"ab cd"`: the substitution `re.sub(r'\s+', ' ', ...)` also
matches newlines, so the line break does not survive cleaning, and the
later blank-line and per-line-trim steps never see a newline. -/
theorem cleanText_newline_collapsed :
    cleanText "ab\ncd".toList = "ab cd".toList := by
  have h1 : collapseWs (stripDisallowed "ab\ncd".toList) = "ab cd".toList := by decide
  unfold cleanText
  rw [if_neg (by decide : ¬("ab\ncd".toList = []))]
  rw [h1, collapseBlankLines_no_nl _ (by decide)]
  decide

/-- C5: text cleaning is idempotent: applying `_clean_text` to its own
output returns that output unchanged. -/
theorem cleanText_idempotent (l : List Char) : cleanText (cleanText l) = cleanText l :=
  cleanText_fixed (cleanText_cleanedForm l)

/-! ## Batch processing -/

theorem batch_process_cons (st : EngineState) (language : String) (inp : BatchInput)
    (rest : List BatchInput) :
    batch_process st language (inp :: rest) =
      ((batchStep language st inp).1 ++
        (batch_process (batchStep language st inp).2 language rest).1,
       (batch_process (batchStep language st inp).2 language rest).2) := rfl

theorem batchStep_fst_const (language : String) (st st' : EngineState)
    (inp : BatchInput) :
    (batchStep language st inp).1 = (batchStep language st' inp).1 := by
  cases h : inp.2 with
  | loadFail e => simp [batchStep, h]
  | run recog postErr =>
    cases recog with
    | ok p =>
      obtain ⟨text, confs⟩ := p
      cases postErr with
      | none => simp [batchStep, h, extract_text]
      | some e => simp [batchStep, h, extract_text]
    | error e' =>
      cases postErr with
      | none => simp [batchStep, h, extract_text]
      | some e => simp [batchStep, h, extract_text]

theorem batchStep_filename (language : String) (st : EngineState) (inp : BatchInput) :
    ∀ r ∈ (batchStep language st inp).1, r.filename = some inp.1 := by
  intro r hr
  cases h : inp.2 with
  | loadFail e =>
    simp only [batchStep, h, List.mem_singleton] at hr
    rw [hr]
    rfl
  | run recog postErr =>
    cases postErr with
    | none =>
      simp only [batchStep, h, List.mem_singleton] at hr
      rw [hr]
    | some e =>
      simp only [batchStep, h, List.mem_cons, List.mem_singleton,
        List.not_mem_nil, or_false] at hr
      rcases hr with hr | hr
      · rw [hr]
      · rw [hr]
        rfl

theorem batchStep_length (language : String) (st : EngineState) (inp : BatchInput) :
    (batchStep language st inp).1.length = if hasPostError inp then 2 else 1 := by
  cases h : inp.2 with
  | loadFail e => simp [batchStep, hasPostError, h]
  | run recog postErr =>
    cases postErr with
    | none => simp [batchStep, hasPostError, h]
    | some e => simp [batchStep, hasPostError, h]

/-- C3 (counterexample to the claim as stated): a single-input batch whose
artifact-save step raises after a successful recognition yields TWO
records, not one — the already-appended success record and then the loop
handler's failure record — so the returned list does not have length N. -/
theorem batch_save_failure_double_record :
    (batch_process engineInit "english"
      [("a.png", BatchItemRun.run (Except.ok ([], [])) (some "disk full"))]).1.length
      = 2 ∧
    ((batch_process engineInit "english"
      [("a.png", BatchItemRun.run (Except.ok ([], [])) (some "disk full"))]).1[0]!).success
      = true ∧
    ((batch_process engineInit "english"
      [("a.png", BatchItemRun.run (Except.ok ([], [])) (some "disk full"))]).1[1]!).success
      = false ∧
    ((batch_process engineInit "english"
      [("a.png", BatchItemRun.run (Except.ok ([], [])) (some "disk full"))]).1[1]!).error
      = some (some "disk full") := by
  refine ⟨rfl, ?_, ?_, ?_⟩ <;> rfl

/-- C3 (amended): `batch_process` attempts every input strictly in the
given order and one bad input never aborts the batch; the record list is
the in-order concatenation of one block per input, in which every record
carries its input's filename; an input failing before recognition
contributes exactly one failure record with its error message, while an
input whose artifact-save or preview step raises after its result record
was appended contributes that record followed by an extra failure record —
so the list length is N plus the number of post-append failures, equalling
N exactly when no input fails after its record was appended. -/
theorem batch_process_order (st : EngineState) (language : String)
    (inputs : List BatchInput) :
    ∃ blocks : List (List OcrResult),
      (batch_process st language inputs).1 = blocks.flatten ∧
      blocks.length = inputs.length ∧
      (∀ i, i < inputs.length →
        blocks[i]! = (batchStep language st (inputs[i]!)).1 ∧
        (∀ r ∈ blocks[i]!, r.filename = some (inputs[i]!.1)) ∧
        (∀ e, inputs[i]!.2 = BatchItemRun.loadFail e →
          blocks[i]! = [batchFailRecord (inputs[i]!.1) e])) ∧
      (batch_process st language inputs).1.length =
        inputs.length + (inputs.filter hasPostError).length := by
  induction inputs generalizing st with
  | nil =>
    exact ⟨[], rfl, rfl, fun i hi => absurd hi (Nat.not_lt_zero i), rfl⟩
  | cons inp rest ih =>
    obtain ⟨bs, h1, h2, h3, h4⟩ := ih (batchStep language st inp).2
    refine ⟨(batchStep language st inp).1 :: bs, ?_, ?_, ?_, ?_⟩
    · rw [batch_process_cons]
      simp [h1]
    · simp [h2]
    · intro i hi
      cases i with
      | zero =>
        refine ⟨by simp, ?_, ?_⟩
        · intro r hr
          simp only [List.getElem!_cons_zero] at hr ⊢
          exact batchStep_filename language st inp r hr
        · intro e he
          simp only [List.getElem!_cons_zero] at he ⊢
          simp [batchStep, he]
      | succ j =>
        have hj : j < rest.length := Nat.lt_of_succ_lt_succ hi
        obtain ⟨g1, g2, g3⟩ := h3 j hj
        refine ⟨?_, ?_, ?_⟩
        · simp only [List.getElem!_cons_succ]
          rw [g1]
          exact batchStep_fst_const language (batchStep language st inp).2 st _
        · intro r hr
          simp only [List.getElem!_cons_succ] at hr ⊢
          exact g2 r hr
        · intro e he
          simp only [List.getElem!_cons_succ] at he ⊢
          exact g3 e he
    · rw [batch_process_cons]
      simp only [List.length_append, List.length_cons, List.filter_cons]
      rw [h4, batchStep_length]
      by_cases hp : hasPostError inp
      · rw [if_pos hp, if_pos hp]
        simp only [List.length_cons]
        omega
      · rw [if_neg hp, if_neg hp]
        omega

/-- C3 witness: a three-item batch — a load failure, a clean engine
failure, and a success whose artifact save then fails — yields blocks in
input order, 4 records in total (3 inputs + 1 post-append failure), the
first block being exactly the first item's failure record. -/
theorem batch_process_order_witness :
    (batch_process engineInit "english"
      [("a.png", BatchItemRun.loadFail "boom"),
       ("b.png", BatchItemRun.run (Except.error "engine gone") none),
       ("c.png", BatchItemRun.run (Except.ok ([], []))
         (some "disk full"))]).1.length = 4 ∧
    (∃ blocks : List (List OcrResult),
      (batch_process engineInit "english"
        [("a.png", BatchItemRun.loadFail "boom"),
         ("b.png", BatchItemRun.run (Except.error "engine gone") none),
         ("c.png", BatchItemRun.run (Except.ok ([], []))
           (some "disk full"))]).1 = blocks.flatten ∧
      blocks.length = 3 ∧
      blocks[0]! = [batchFailRecord "a.png" "boom"]) := by
  obtain ⟨bs, h1, h2, h3, h4⟩ := batch_process_order engineInit "english"
    [("a.png", BatchItemRun.loadFail "boom"),
     ("b.png", BatchItemRun.run (Except.error "engine gone") none),
     ("c.png", BatchItemRun.run (Except.ok ([], [])) (some "disk full"))]
  refine ⟨?_, bs, h1, h2, ?_⟩
  · rw [h4]
    rfl
  · have h0 := (h3 0 (by norm_num)).2.2 "boom" rfl
    simpa using h0

/-- C4 (counterexample to the claim as stated): a batch item that fails
before recognition (here an unreadable path) produces a failed record whose
numeric fields are absent rather than zero: the loop's handler fills only
`success`, `filename`, `error` and `text`. -/
theorem batch_failed_record_missing_fields :
    ((batch_process engineInit "english"
        [("bad.png", BatchItemRun.loadFail "cannot open")]).1[0]!).success = false ∧
    ((batch_process engineInit "english"
        [("bad.png", BatchItemRun.loadFail "cannot open")]).1[0]!).confidence ≠ some 0 ∧
    ((batch_process engineInit "english"
        [("bad.png", BatchItemRun.loadFail "cannot open")]).1[0]!).word_count ≠ some 0 ∧
    ((batch_process engineInit "english"
        [("bad.png", BatchItemRun.loadFail "cannot open")]).1[0]!).char_count ≠ some 0 := by
  exact ⟨rfl, by decide, by decide, by decide⟩

/-- C4 (amended): a failed record produced by `extract_text`'s own handler
is fully populated (`success=false`, stringified error, zeroed confidence,
word and character counts, empty cleaned and raw text), and a record for a
success has `error` present and null; but a failure caught by the
`batch_process` loop itself carries only `success=false`, the filename,
the error message and empty text, with the numeric fields absent — and
that handler builds the same minimal record shape whether the exception
fired before recognition or after the item's result record was appended. -/
theorem failed_record_population (st : EngineState) (language : String)
    (e name : String) (recog : RecogOutcome) :
    (extract_text st language (Except.error e)).1 =
      { success := false, text := some [], raw_text := some [],
        language := some language, language_code := none,
        confidence := some 0, word_count := some 0, char_count := some 0,
        error := some (some e), filename := none } ∧
    batchFailRecord name e =
      { success := false, text := some [], raw_text := none,
        language := none, language_code := none,
        confidence := none, word_count := none, char_count := none,
        error := some (some e), filename := some name } ∧
    (batchStep language st (name, BatchItemRun.loadFail e)).1 =
      [batchFailRecord name e] ∧
    (batchStep language st (name, BatchItemRun.run recog (some e))).1 =
      [{ (extract_text st language recog).1 with filename := some name },
       batchFailRecord name e] ∧
    (∀ recog2 : RecogOutcome, (extract_text st language recog2).1.success = true →
      (extract_text st language recog2).1.error = some none) := by
  refine ⟨rfl, rfl, rfl, rfl, ?_⟩
  intro recog2 hs
  cases recog2 with
  | ok p => rfl
  | error e' => exact absurd hs (by simp [extract_text])

/-- C4 witness: the amended statement applied to a concrete engine failure
and a concrete empty-text success. -/
theorem failed_record_population_witness :
    (extract_text engineInit "english" (Except.error "x")).1.confidence = some 0 ∧
    (extract_text engineInit "english" (Except.ok ([], []))).1.error = some none :=
  ⟨by rw [(failed_record_population engineInit "english" "x" "f.png"
      (Except.error "x")).1],
   (failed_record_population engineInit "english" "x" "f.png"
      (Except.error "x")).2.2.2.2 (Except.ok ([], [])) rfl⟩

/-- C10: starting from a fresh engine, any sequence of `extract_text` calls
keeps `total_images = successful + failed = len(ocr_results)`, and each
call — successful or failed — appends exactly one record to `ocr_results`
and increments `total_images` by exactly one. -/
theorem extract_text_stats (calls : List (String × RecogOutcome)) :
    StatsInv (runCalls calls) ∧
    (∀ (st : EngineState) (language : String) (recog : RecogOutcome),
      (extract_text st language recog).2.ocr_results =
        st.ocr_results ++ [(extract_text st language recog).1] ∧
      (extract_text st language recog).2.total_images = st.total_images + 1) := by
  have step : ∀ (st : EngineState) (c : String × RecogOutcome), StatsInv st →
      StatsInv (extract_text st c.1 c.2).2 := by
    intro st c hst
    obtain ⟨h1, h2⟩ := hst
    cases hr : c.2 with
    | ok p =>
      obtain ⟨text, confs⟩ := p
      refine ⟨by simp [extract_text]; omega, by simp [extract_text, h2]⟩
    | error e =>
      refine ⟨by simp [extract_text]; omega, by simp [extract_text, h2]⟩
  have main : ∀ (cs : List (String × RecogOutcome)) (st : EngineState), StatsInv st →
      StatsInv (cs.foldl (fun st c => (extract_text st c.1 c.2).2) st) := by
    intro cs
    induction cs with
    | nil => intro st h; exact h
    | cons c cs ih =>
      intro st h
      exact ih _ (step st c h)
  refine ⟨main calls engineInit ⟨rfl, rfl⟩, ?_⟩
  intro st language recog
  cases recog with
  | ok p =>
    obtain ⟨text, confs⟩ := p
    exact ⟨rfl, rfl⟩
  | error e => exact ⟨rfl, rfl⟩

/-! ## Image pipeline -/

/-- C6 (counterexample to the claim as stated): an unsupported
noise-removal method falls back to returning the image unchanged but
appends no note to the step log: the `else` branch of `remove_noise` has no
`self.log` call, so the log `["Loaded image"]` comes back as-is. -/
theorem remove_noise_unknown_no_log :
    remove_noise
      (⟨fun i _ => i + 1, fun i _ => i + 2, fun i _ => i + 3, fun i _ => i + 4⟩ :
        NoiseFilters Nat)
      ["Loaded image"] 7 "bilateral" 3 = (7, ["Loaded image"]) := rfl

/-- C6 (amended): for every method name outside `{median, gaussian, min,
max}` the noise-reduction step is a silent passthrough: it returns the
input image unchanged and leaves the step log unchanged, appending no
fallback note; no exception arises in this step. -/
theorem remove_noise_unknown_passthrough {Img : Type} (F : NoiseFilters Img)
    (log : List String) (image : Img) (method : String) (size : Nat)
    (h : method ∉ ["median", "gaussian", "min", "max"]) :
    remove_noise F log image method size = (image, log) := by
  simp only [List.mem_cons, List.not_mem_nil, or_false, not_or] at h
  obtain ⟨h1, h2, h3, h4⟩ := h
  simp [remove_noise, h1, h2, h3, h4]

/-- C6 witness: the amended statement applied to the method name
`"bilateral"`, a name no branch of `remove_noise` matches. -/
theorem remove_noise_unknown_passthrough_witness :
    remove_noise
      (⟨fun i _ => i + 1, fun i _ => i + 2, fun i _ => i + 3, fun i _ => i + 4⟩ :
        NoiseFilters Nat)
      ["step a", "step b"] 5 "bilateral" 3 = (5, ["step a", "step b"]) :=
  remove_noise_unknown_passthrough _ _ _ _ _ (by decide)

/-- C7: when an image's longer side exceeds the 2000-pixel ceiling, the
pipeline's downscale step (resize to max `(1500, 1500)`) produces an output
whose longer side is at most 1500, both coordinates scaled by one common
positive ratio and floored (aspect ratio preserved within integer
rounding); an image at or below the ceiling is left unresized. -/
theorem pipelineResize_bounds (w h : Nat) (hw : 0 < w) (hh : 0 < h) :
    (2000 < max w h →
      max (pipelineResize w h).1 (pipelineResize w h).2 ≤ 1500 ∧
      ∃ r : ℚ, 0 < r ∧
        (pipelineResize w h).1 = (⌊(w : ℚ) * r⌋).toNat ∧
        (pipelineResize w h).2 = (⌊(h : ℚ) * r⌋).toNat) ∧
    (max w h ≤ 2000 → pipelineResize w h = (w, h)) := by
  have hwq : (0 : ℚ) < (w : ℚ) := by exact_mod_cast hw
  have hhq : (0 : ℚ) < (h : ℚ) := by exact_mod_cast hh
  constructor
  · intro hM
    set r : ℚ := min ((1500 : ℚ) / (w : ℚ)) ((1500 : ℚ) / (h : ℚ)) with hrdef
    have hrpos : 0 < r :=
      lt_min (div_pos (by norm_num) hwq) (div_pos (by norm_num) hhq)
    have hr1 : r < 1 := by
      rcases max_cases w h with ⟨hmax, _⟩ | ⟨hmax, _⟩
      · have hw2000 : (1500 : ℚ) < (w : ℚ) := by
          have h2 : 2000 < w := hmax ▸ hM
          have h3 : 1500 < w := lt_trans (by norm_num) h2
          exact_mod_cast h3
        calc r ≤ (1500 : ℚ) / (w : ℚ) := min_le_left _ _
          _ < 1 := (div_lt_one hwq).mpr hw2000
      · have hh2000 : (1500 : ℚ) < (h : ℚ) := by
          have h2 : 2000 < h := hmax ▸ hM
          have h3 : 1500 < h := lt_trans (by norm_num) h2
          exact_mod_cast h3
        calc r ≤ (1500 : ℚ) / (h : ℚ) := min_le_right _ _
          _ < 1 := (div_lt_one hhq).mpr hh2000
    have hbranch : pipelineResize w h =
        ((⌊(w : ℚ) * r⌋).toNat, (⌊(h : ℚ) * r⌋).toNat) := by
      simp only [pipelineResize, if_pos hM, resize_image, resizeMax, Nat.cast_ofNat]
      rw [if_pos hr1]
    have hb1 : (⌊(w : ℚ) * r⌋).toNat ≤ 1500 := by
      have hle : (w : ℚ) * r ≤ 1500 := by
        calc (w : ℚ) * r ≤ (w : ℚ) * ((1500 : ℚ) / (w : ℚ)) :=
              mul_le_mul_of_nonneg_left (min_le_left _ _) (le_of_lt hwq)
          _ = 1500 := by field_simp
      have hfl : ⌊(w : ℚ) * r⌋ ≤ (1500 : ℤ) := by
        calc ⌊(w : ℚ) * r⌋ ≤ ⌊(1500 : ℚ)⌋ := Int.floor_le_floor hle
          _ = 1500 := by norm_num
      exact Int.toNat_le.mpr hfl
    have hb2 : (⌊(h : ℚ) * r⌋).toNat ≤ 1500 := by
      have hle : (h : ℚ) * r ≤ 1500 := by
        calc (h : ℚ) * r ≤ (h : ℚ) * ((1500 : ℚ) / (h : ℚ)) :=
              mul_le_mul_of_nonneg_left (min_le_right _ _) (le_of_lt hhq)
          _ = 1500 := by field_simp
      have hfl : ⌊(h : ℚ) * r⌋ ≤ (1500 : ℤ) := by
        calc ⌊(h : ℚ) * r⌋ ≤ ⌊(1500 : ℚ)⌋ := Int.floor_le_floor hle
          _ = 1500 := by norm_num
      exact Int.toNat_le.mpr hfl
    rw [hbranch]
    exact ⟨max_le hb1 hb2, r, hrpos, rfl, rfl⟩
  · intro hmax
    simp [pipelineResize, Nat.not_lt.mpr hmax]

/-- C7 witness: a 2500×1000 image is downscaled to longer side at most
1500, and an 800×600 image is left unresized. -/
theorem pipelineResize_bounds_witness :
    (0 < 2500 ∧ 0 < 1000 ∧ 2000 < max 2500 1000) ∧
    max (pipelineResize 2500 1000).1 (pipelineResize 2500 1000).2 ≤ 1500 ∧
    pipelineResize 800 600 = (800, 600) :=
  ⟨⟨by norm_num, by norm_num, by norm_num⟩,
   ((pipelineResize_bounds 2500 1000 (by norm_num) (by norm_num)).1 (by norm_num)).1,
   (pipelineResize_bounds 800 600 (by norm_num) (by norm_num)).2 (by norm_num)⟩

/-- C8: with both factors equal to `1.0` the enhancement returns the image
unchanged and appends no enhancement entry to the step log; each factor
different from `1.0` is applied and logged independently of the other,
brightness first. -/
theorem adjust_brightness_contrast_cases {Img : Type} (E : Enhancers Img)
    (log : List String) (image : Img) (b c : ℚ) :
    (b = 1 → c = 1 → adjust_brightness_contrast E log image b c = (image, log)) ∧
    (b ≠ 1 → c = 1 → adjust_brightness_contrast E log image b c =
      (E.brightness image b, log ++ ["Adjusted brightness: " ++ toString b])) ∧
    (b = 1 → c ≠ 1 → adjust_brightness_contrast E log image b c =
      (E.contrast image c, log ++ ["Adjusted contrast: " ++ toString c])) ∧
    (b ≠ 1 → c ≠ 1 → adjust_brightness_contrast E log image b c =
      (E.contrast (E.brightness image b) c,
       log ++ ["Adjusted brightness: " ++ toString b] ++
         ["Adjusted contrast: " ++ toString c])) := by
  refine ⟨?_, ?_, ?_, ?_⟩ <;> intro hb hc <;>
    simp [adjust_brightness_contrast, hb, hc]

/-- C8 witness: both factors `1.0` on a concrete image and log: unchanged
image, unchanged log. -/
theorem adjust_brightness_contrast_cases_witness :
    adjust_brightness_contrast
      (⟨fun i q => i + q, fun i q => i * q⟩ : Enhancers ℚ)
      ["Converted to grayscale"] 9 1 1 = (9, ["Converted to grayscale"]) :=
  (adjust_brightness_contrast_cases _ _ _ _ _).1 rfl rfl

/-! ## Aggregates -/

/-- C9: the aggregates are guarded against an empty successful subset: with
no successful record, `_save_batch_report`'s aggregate block is skipped
entirely (no division occurs), and with successes present the mean
confidence and total characters are computed over exactly the successful
sublist, whose length is positive; likewise `get_performance_report`
computes nothing when `successful` is zero. -/
theorem batchAggregates_safe (results : List OcrResult) (st : EngineState) :
    (results.filter (fun r => r.success) = [] → batchAggregates results = none) ∧
    (results.filter (fun r => r.success) ≠ [] →
      0 < (results.filter (fun r => r.success)).length ∧
      batchAggregates results = some
        ((((results.filter (fun r => r.success)).map
            (fun r => r.confidence.getD 0)).sum) /
          ((results.filter (fun r => r.success)).length : ℚ),
         ((results.filter (fun r => r.success)).map
           (fun r => r.char_count.getD 0)).sum)) ∧
    (st.successful = 0 → perfStats st = none) := by
  refine ⟨?_, ?_, ?_⟩
  · intro h
    simp [batchAggregates, h]
  · intro h
    exact ⟨List.length_pos.mpr h, by simp [batchAggregates, h]⟩
  · intro h
    simp [perfStats, h]

/-- C9 witness: an empty batch gives no aggregates, a fresh engine gives no
performance numbers, and one successful record makes the successful subset
nonempty. -/
theorem batchAggregates_safe_witness :
    batchAggregates [] = none ∧
    perfStats engineInit = none ∧
    0 < (([(⟨true, some [], some [], some "english", some "eng", some 80,
        some 0, some 5, some none, none⟩ : OcrResult)]).filter
        (fun r => r.success)).length :=
  ⟨(batchAggregates_safe [] engineInit).1 rfl,
   (batchAggregates_safe [] engineInit).2.2 rfl,
   ((batchAggregates_safe
      [(⟨true, some [], some [], some "english", some "eng", some 80,
        some 0, some 5, some none, none⟩ : OcrResult)] engineInit).2.1
     (by decide)).1⟩

end OcrSpec
